import Mathlib

/-!
# Verification of the axial-length growth-curve application

Shallow embedding of `streamlit_app.py`: the reference-table loader
(`load_growth_curve`, the `df_long` label normalization), the percentile
estimator (`nearest_age`, `percentile_cols`, `approx_percentile`), the age
computation (`age_years`) and the visit log (`st.session_state.visits`,
`visits_current_gender`, the form-submission append).

Numbers are modelled as rationals, dates as Gregorian calendar dates with an
exact day count, pandas data frames as a header list plus a list of rows.
-/

set_option maxRecDepth 8000

namespace AxialApp

/-- A cell of a data frame as pandas holds it after `read_csv`: a float,
a non-numeric string, or NaN (missing / empty field). -/
inductive Cell where
  | num (q : ℚ)
  | text (s : String)
  | blank
deriving DecidableEq, Repr

/-- pandas `isna`: only NaN cells are NA (strings are not). -/
def cellIsNA : Cell → Bool
  | Cell.blank => true
  | _ => false

/-- Embeds `pd.to_numeric(·, errors="coerce")` on one cell: floats pass through,
anything non-numeric becomes NaN (`none`). -/
def to_numeric : Cell → Option ℚ
  | Cell.num q => some q
  | _ => none

/-- Python `str.strip()` on a character list: drop leading and trailing
whitespace. -/
def stripChars (l : List Char) : List Char :=
  ((l.dropWhile Char.isWhitespace).reverse.dropWhile Char.isWhitespace).reverse

/-- Line 49: `c.strip().replace("�", "")` — strip whitespace, then remove
every occurrence of the BOM-decoding artifact U+FFFD (a one-character
pattern, so `replace` is a character filter). -/
def cleanHeader (c : String) : String :=
  ⟨(stripChars c.data).filter (fun ch => ch ≠ '�')⟩

/-- Python `str.replace("th", "", regex=False) := remove every (non-overlapping,
left-to-right) occurrence of the two-character pattern `"th"`. -/
def removeTh : List Char → List Char
  | 't' :: 'h' :: rest => removeTh rest
  | c :: rest => c :: removeTh rest
  | [] => []

/-- Lines 65–70: the `Percentile` labels of the long-format plotting table
`df_long`: `.astype(str).str.replace("th", "", regex=False).str.strip()`. -/
def df_long_percentile_label (c : String) : String :=
  ⟨stripChars (removeTh c.data)⟩

/-- A pandas data frame: column headers plus rows of cells, column `j` of a
row being cell `j`. -/
structure RawTable where
  headers : List String
  rows : List (List Cell)
deriving DecidableEq, Repr

/-- Lines 45–53, `load_growth_curve`: clean the column names, drop rows that
are entirely NA, coerce the `Age` column to numeric, drop rows whose `Age`
failed to coerce. -/
def load_growth_curve (t : RawTable) : RawTable :=
  let hs := t.headers.map cleanHeader
  let i := hs.indexOf "Age"
  let r1 := t.rows.filter (fun r => !r.all cellIsNA)
  let r2 := r1.map (fun r =>
    r.set i (match to_numeric (r.getD i Cell.blank) with
             | some q => Cell.num q
             | none => Cell.blank))
  let r3 := r2.filter (fun r => !cellIsNA (r.getD i Cell.blank))
  ⟨hs, r3⟩

/-- Line 261: `[c for c in df.columns if c != "Age"]`. -/
def percentile_cols (headers : List String) : List String :=
  headers.filter (fun c => c != "Age")

/-!
## The percentile estimator (lines 253–264)

The estimator consults the loaded data frame `df`, whose cells are all
numeric by then (the growth-curve files hold floats and the `Age` column has
been coerced), so it is embedded over a table of rationals.
-/

/-- The loaded reference data frame as the estimator sees it: cleaned column
headers plus numeric rows. -/
structure RefTable where
  headers : List String
  rows : List (List ℚ)
deriving DecidableEq, Repr

/-- Embeds `row["Age"]`: the cell of the row in the (first) column labelled `"Age"`. -/
def rowAge (t : RefTable) (r : List ℚ) : ℚ :=
  r.getD (t.headers.indexOf "Age") 0

/-- Embeds `row[p]`: the cell of the row in the (first) column labelled `p`. -/
def rowVal (t : RefTable) (r : List ℚ) (p : String) : ℚ :=
  r.getD (t.headers.indexOf p) 0

/-- Embeds `df["Age"]` as a list. -/
def agesList (t : RefTable) : List ℚ :=
  t.rows.map (rowAge t)

/-- Embeds `.abs()`: absolute value, written executably so that concrete tables
evaluate by kernel reduction. -/
def rabs (q : ℚ) : ℚ := if q < 0 then -q else q

theorem rabs_eq_abs (q : ℚ) : rabs q = |q| := by
  unfold rabs
  split
  · rw [abs_of_neg]; assumption
  · rw [abs_of_nonneg]; exact le_of_not_lt (by assumption)

/-- Embeds `numpy.argsort` as pandas applies it here: a stable ascending sort of the
positions by value (on arrays of this size numpy falls back to insertion
sort, which is stable); a stable argsort orders positions lexicographically
by (value, position). -/
def argsortLE (vals : List ℚ) (i j : ℕ) : Bool :=
  decide (vals.getD i 0 < vals.getD j 0 ∨ (vals.getD i 0 = vals.getD j 0 ∧ i ≤ j))

def argsort (vals : List ℚ) : List ℕ :=
  (List.range vals.length).mergeSort (argsortLE vals)

/-- Line 259: `df.iloc[(df["Age"] - last["Age"]).abs().argsort()[0]]["Age"]`.
`[0]` on an empty index raises (`none`); otherwise it is the head of the
argsort of the absolute differences. -/
def nearest_age (t : RefTable) (x : ℚ) : Option ℚ :=
  match (argsort ((agesList t).map (fun a => rabs (a - x)))).head? with
  | none => none
  | some i => (t.rows.get? i).map (rowAge t)

/-- Python `min(·, key)` over keys in iteration order: fold keeping the
current best, replacing it only when a later element is strictly smaller
(so the first minimiser wins); `min` of an empty sequence raises (`none`). -/
def min_by_key {α : Type} (key : α → ℚ) : List α → Option α
  | [] => none
  | c :: cs => some (cs.foldl (fun best p => if key p < key best then p else best) c)

/-- Lines 262–263: `differences = {p: abs(row[p] - last["AxialLength"]) for p
in percentile_cols}`; `approx_percentile = min(differences,
key=differences.get)` — the dict iterates in `percentile_cols` order. -/
def approx_percentile (t : RefTable) (row : List ℚ) (v : ℚ) : Option String :=
  min_by_key (fun p => rabs (rowVal t row p - v)) (percentile_cols t.headers)

/-- Lines 258–264 as one function: the estimate the app reports for an
observed (age, axial length) pair — the nearest table age, the row selected
for it (line 260: first row whose `Age` equals that age), the nearest
percentile label of that row and its curve value. -/
def estimate (t : RefTable) (obsAge obsVal : ℚ) : Option (ℚ × String × ℚ) :=
  match nearest_age t obsAge with
  | none => none
  | some a =>
    match t.rows.find? (fun r => decide (rowAge t r = a)) with
    | none => none
    | some row =>
      match approx_percentile t row obsVal with
      | none => none
      | some p => some (a, p, rowVal t row p)

/-!
## Dates and the age computation (lines 130–131)
-/

/-- A Gregorian calendar date, as `datetime.date` holds it. -/
structure CivilDate where
  year : ℕ
  month : ℕ
  day : ℕ
deriving DecidableEq, Repr

/-- Gregorian leap-year rule. -/
def isLeap (y : ℕ) : Bool :=
  y % 4 == 0 && (y % 100 != 0 || y % 400 == 0)

/-- Length of month `m` (1-based) of year `y`. -/
def monthLen (y m : ℕ) : ℕ :=
  [31, if isLeap y then 29 else 28, 31, 30, 31, 30, 31, 31, 30, 31, 30, 31].getD (m - 1) 0

/-- Day number within the year (1-based). -/
def dayOfYear (d : CivilDate) : ℕ :=
  ((List.range (d.month - 1)).map (fun i => monthLen d.year (i + 1))).sum + d.day

/-- Rata-die day number of a Gregorian date (day 1 = 0001-01-01). -/
def rataDie (d : CivilDate) : ℕ :=
  365 * (d.year - 1) + (d.year - 1) / 4 - (d.year - 1) / 100 + (d.year - 1) / 400 +
    dayOfYear d

/-- Python `(visit_date - dob).days`: the exact signed day count between two
dates. -/
def diffDays (dob visit : CivilDate) : ℤ :=
  (rataDie visit : ℤ) - (rataDie dob : ℤ)

/-- Python `round` to an integer: round half to even (banker's rounding). -/
def pyRoundInt (q : ℚ) : ℤ :=
  let f := ⌊q⌋
  if q - f < 1/2 then f
  else if q - f > 1/2 then f + 1
  else if f % 2 = 0 then f else f + 1

/-- Python `round(x, 2)`. -/
def pyRound2 (q : ℚ) : ℚ :=
  (pyRoundInt (100 * q) : ℚ) / 100

/-- Lines 130–131: `age_days = (visit_date - dob).days;
age_years = round(age_days / 365.25, 2)`. -/
def age_years (dob visit : CivilDate) : ℚ :=
  pyRound2 ((diffDays dob visit : ℚ) / (36525 / 100))

/-!
## The visit log (lines 80–180)
-/

/-- One row of `st.session_state.visits` (`EXPECTED_COLUMNS`, line 80). -/
structure VisitRecord where
  gender : String
  dateOfBirth : CivilDate
  visit : String
  visitDate : CivilDate
  age : ℚ
  eye : String
  axialLength : ℚ
deriving DecidableEq, Repr

/-- Lines 145–173: a form submission appends one OD and one OS row, sharing
the gender, dob, label, visit date and the age computed from them, to the
visit log. -/
def submitVisit (visits : List VisitRecord) (gender : String) (dob : CivilDate)
    (visit_label : String) (visit_date : CivilDate)
    (axial_right axial_left : ℚ) : List VisitRecord :=
  let age := age_years dob visit_date
  visits ++
    [⟨gender, dob, visit_label, visit_date, age, "OD", axial_right⟩,
     ⟨gender, dob, visit_label, visit_date, age, "OS", axial_left⟩]

/-- Lines 178–180: `st.session_state.visits[st.session_state.visits["Gender"]
== gender]`. -/
def visits_current_gender (visits : List VisitRecord) (gender : String) :
    List VisitRecord :=
  visits.filter (fun r => r.gender == gender)

/-- Line 256: `visits_current_gender[visits_current_gender["Eye"] == eye]`. -/
def eye_data (visits : List VisitRecord) (gender eye : String) : List VisitRecord :=
  (visits_current_gender visits gender).filter (fun r => r.eye == eye)

/-- Line 258: `last = eye_data.iloc[-1]` — the last-added matching record
(`none` when there is none, line 257's emptiness guard). -/
def last_added (visits : List VisitRecord) (gender eye : String) : Option VisitRecord :=
  (eye_data visits gender eye).getLast?

/-- Lines 253–264: the percentile estimate the app reports for one eye — the
estimator applied to the age and axial length of the last-added record for
that eye under the active gender. -/
def report_for_eye (t : RefTable) (visits : List VisitRecord) (gender eye : String) :
    Option (ℚ × String × ℚ) :=
  match last_added visits gender eye with
  | none => none
  | some last => estimate t last.age last.axialLength

/-!
## Library lemmas: first-argmin behaviour of `argsort` and `min_by_key`
-/

theorem getD_map_of_lt {α β : Type} (f : α → β) (l : List α) (d : α) (d' : β) :
    ∀ j, j < l.length → (l.map f).getD j d' = f (l.getD j d) := by
  induction l with
  | nil => intro j hj; exact absurd hj (by simp)
  | cons a l ih =>
    intro j hj
    cases j with
    | zero => simp
    | succ j =>
      simp only [List.map_cons, List.getD_cons_succ]
      exact ih j (by simpa using Nat.lt_of_succ_lt_succ hj)

theorem argsortLE_trans (vals : List ℚ) :
    ∀ a b c, argsortLE vals a b → argsortLE vals b c → argsortLE vals a c := by
  intro a b c hab hbc
  simp only [argsortLE, decide_eq_true_eq] at hab hbc ⊢
  rcases hab with h1 | ⟨h1, h1'⟩ <;> rcases hbc with h2 | ⟨h2, h2'⟩
  · exact Or.inl (lt_trans h1 h2)
  · exact Or.inl (h2 ▸ h1)
  · exact Or.inl (h1 ▸ h2)
  · exact Or.inr ⟨h1.trans h2, Nat.le_trans h1' h2'⟩

theorem argsortLE_total (vals : List ℚ) :
    ∀ a b, argsortLE vals a b || argsortLE vals b a := by
  intro a b
  simp only [argsortLE, Bool.or_eq_true, decide_eq_true_eq]
  rcases lt_trichotomy (vals.getD a 0) (vals.getD b 0) with h | h | h
  · exact Or.inl (Or.inl h)
  · rcases Nat.le_total a b with hab | hba
    · exact Or.inl (Or.inr ⟨h, hab⟩)
    · exact Or.inr (Or.inr ⟨h.symm, hba⟩)
  · exact Or.inr (Or.inl h)

/-- The head of `argsort` is the position of the first minimum: it is a valid
position, its value is a lower bound, and any position with an equal value is
not earlier. -/
theorem argsort_head_spec (vals : List ℚ) (h : vals ≠ []) :
    ∃ k, (argsort vals).head? = some k ∧ k < vals.length ∧
      (∀ j, j < vals.length → vals.getD k 0 ≤ vals.getD j 0) ∧
      (∀ j, j < vals.length → vals.getD j 0 = vals.getD k 0 → k ≤ j) := by
  have hn : 0 < vals.length := List.length_pos.mpr h
  have hlen : (argsort vals).length = vals.length := by
    simp [argsort]
  have hperm : List.Perm (argsort vals) (List.range vals.length) :=
    List.mergeSort_perm (List.range vals.length) (argsortLE vals)
  have hne : argsort vals ≠ [] := by
    intro e
    rw [e] at hlen
    simp at hlen
    omega
  obtain ⟨k, ts, hkts⟩ := List.exists_cons_of_ne_nil hne
  have hsorted : (argsort vals).Pairwise (fun a b => argsortLE vals a b = true) :=
    List.sorted_mergeSort (argsortLE_trans vals) (argsortLE_total vals)
      (List.range vals.length)
  rw [hkts] at hsorted
  have htail : ∀ j ∈ ts, argsortLE vals k j = true := (List.pairwise_cons.mp hsorted).1
  have hkmem : k < vals.length := by
    have : k ∈ argsort vals := by rw [hkts]; exact List.mem_cons_self k ts
    have := hperm.mem_iff.mp this
    simpa [List.mem_range] using this
  have hle : ∀ j, j < vals.length → argsortLE vals k j := by
    intro j hj
    have : j ∈ argsort vals := hperm.mem_iff.mpr (by simpa [List.mem_range] using hj)
    rw [hkts] at this
    rcases List.mem_cons.mp this with rfl | hmem
    · simp [argsortLE]
    · exact htail j hmem
  refine ⟨k, by rw [hkts]; rfl, hkmem, ?_, ?_⟩
  · intro j hj
    have := hle j hj
    simp only [argsortLE, decide_eq_true_eq] at this
    rcases this with h' | ⟨h', _⟩
    · exact le_of_lt h'
    · exact le_of_eq h'
  · intro j hj heq
    have := hle j hj
    simp only [argsortLE, decide_eq_true_eq] at this
    rcases this with h' | ⟨_, h'⟩
    · exact absurd heq (ne_of_gt h')
    · exact h'

/-- The fold inside Python `min(·, key=·)` returns the first element of
`c :: cs` whose key is minimal. -/
theorem foldl_min_spec {α : Type} (key : α → ℚ) (d : α) :
    ∀ (cs : List α) (c : α),
      ∃ i, i < (c :: cs).length ∧
        (c :: cs).getD i d = cs.foldl (fun best p => if key p < key best then p else best) c ∧
        (∀ j, j < (c :: cs).length →
          key (cs.foldl (fun best p => if key p < key best then p else best) c) ≤
            key ((c :: cs).getD j d)) ∧
        (∀ j, j < i →
          key (cs.foldl (fun best p => if key p < key best then p else best) c) <
            key ((c :: cs).getD j d)) := by
  intro cs
  induction cs with
  | nil =>
    intro c
    refine ⟨0, by simp, by simp, ?_, by omega⟩
    intro j hj
    have hj0 : j = 0 := by simpa using hj
    subst hj0
    simp
  | cons p cs ih =>
    intro c
    rw [List.foldl_cons]
    by_cases hpc : key p < key c
    · rw [if_pos hpc]
      obtain ⟨i, hilen, higet, hmin, hstrict⟩ := ih p
      refine ⟨i + 1, by simpa using Nat.succ_lt_succ hilen, by simpa using higet, ?_, ?_⟩
      · intro j hj
        cases j with
        | zero =>
          have h0 : key (cs.foldl (fun best p => if key p < key best then p else best) p) ≤
              key p := by
            have := hmin 0 (by simp)
            simpa using this
          simp only [List.getD_cons_zero]
          exact le_of_lt (lt_of_le_of_lt h0 hpc)
        | succ j =>
          simp only [List.getD_cons_succ]
          exact hmin j (by simpa using Nat.lt_of_succ_lt_succ hj)
      · intro j hj
        cases j with
        | zero =>
          have h0 : key (cs.foldl (fun best p => if key p < key best then p else best) p) ≤
              key p := by
            have := hmin 0 (by simp)
            simpa using this
          simp only [List.getD_cons_zero]
          exact lt_of_le_of_lt h0 hpc
        | succ j =>
          simp only [List.getD_cons_succ]
          exact hstrict j (Nat.lt_of_succ_lt_succ hj)
    · rw [if_neg hpc]
      have hcp : key c ≤ key p := le_of_not_lt hpc
      obtain ⟨i, hilen, higet, hmin, hstrict⟩ := ih c
      cases i with
      | zero =>
        refine ⟨0, by simp, by simpa using higet, ?_, by omega⟩
        intro j hj
        cases j with
        | zero => simpa using hmin 0 (by simp)
        | succ j =>
          cases j with
          | zero =>
            have h0 := hmin 0 (by simp)
            simp only [List.getD_cons_zero] at h0 ⊢
            simp only [List.getD_cons_succ, List.getD_cons_zero]
            exact le_trans h0 hcp
          | succ j =>
            simp only [List.getD_cons_succ]
            exact hmin (j + 1) (by simpa using Nat.lt_of_succ_lt_succ hj)
      | succ i =>
        refine ⟨i + 2, ?_, ?_, ?_, ?_⟩
        · simp only [List.length_cons]
          simp only [List.length_cons] at hilen
          omega
        · simp only [List.getD_cons_succ]
          simpa using higet
        · intro j hj
          cases j with
          | zero =>
            simpa using hmin 0 (by simp)
          | succ j =>
            cases j with
            | zero =>
              have h0 := hmin 0 (by simp)
              simp only [List.getD_cons_zero] at h0
              simp only [List.getD_cons_succ, List.getD_cons_zero]
              exact le_trans h0 hcp
            | succ j =>
              simp only [List.getD_cons_succ]
              exact hmin (j + 1) (by simpa using Nat.lt_of_succ_lt_succ hj)
        · intro j hj
          cases j with
          | zero =>
            have h0 := hstrict 0 (by omega)
            simp only [List.getD_cons_zero] at h0
            simpa using h0
          | succ j =>
            cases j with
            | zero =>
              have h0 := hstrict 0 (by omega)
              simp only [List.getD_cons_zero] at h0
              simp only [List.getD_cons_succ, List.getD_cons_zero]
              exact lt_of_lt_of_le h0 hcp
            | succ j =>
              simp only [List.getD_cons_succ]
              exact hstrict (j + 1) (by omega)

/-- Python `min(·, key=·)` on a non-empty sequence returns the first element
with minimal key. -/
theorem min_by_key_spec {α : Type} (key : α → ℚ) (d : α) (l : List α) (h : l ≠ []) :
    ∃ r i, min_by_key key l = some r ∧ i < l.length ∧ l.getD i d = r ∧
      (∀ j, j < l.length → key r ≤ key (l.getD j d)) ∧
      (∀ j, j < i → key r < key (l.getD j d)) := by
  match l, h with
  | c :: cs, _ =>
    obtain ⟨i, hilen, higet, hmin, hstrict⟩ := foldl_min_spec key d cs c
    exact ⟨_, i, rfl, hilen, higet, hmin, hstrict⟩

theorem get?_eq_getD_of_lt {α : Type} (l : List α) (d : α) :
    ∀ j, j < l.length → l.get? j = some (l.getD j d) := by
  induction l with
  | nil => simp
  | cons a l ih =>
    intro j hj
    cases j with
    | zero => simp
    | succ j => simpa using ih j (by simpa using Nat.lt_of_succ_lt_succ hj)

theorem getD_mem_of_lt {α : Type} (l : List α) (d : α) :
    ∀ j, j < l.length → l.getD j d ∈ l := by
  induction l with
  | nil => simp
  | cons a l ih =>
    intro j hj
    cases j with
    | zero => simp
    | succ j =>
      simp only [List.getD_cons_succ]
      exact List.mem_cons_of_mem a (ih j (by simpa using Nat.lt_of_succ_lt_succ hj))

theorem exists_getD_of_mem {α : Type} (l : List α) (d : α) (a : α) (h : a ∈ l) :
    ∃ j, j < l.length ∧ l.getD j d = a := by
  induction l with
  | nil => simp at h
  | cons b l ih =>
    rcases List.mem_cons.mp h with rfl | hmem
    · exact ⟨0, by simp, by simp⟩
    · obtain ⟨j, hj, hgd⟩ := ih hmem
      exact ⟨j + 1, by simpa using Nat.succ_lt_succ hj, by simpa using hgd⟩

/-- What line 259 returns: the age of the row at the first position minimising
the absolute age difference. -/
theorem nearest_age_spec (t : RefTable) (x : ℚ) (h : t.rows ≠ []) :
    ∃ i, i < t.rows.length ∧
      nearest_age t x = some (rowAge t (t.rows.getD i [])) ∧
      (∀ j, j < t.rows.length →
        rabs (rowAge t (t.rows.getD i []) - x) ≤ rabs (rowAge t (t.rows.getD j []) - x)) ∧
      (∀ j, j < t.rows.length →
        rabs (rowAge t (t.rows.getD j []) - x) = rabs (rowAge t (t.rows.getD i []) - x) →
          i ≤ j) := by
  have hvlen : ((agesList t).map (fun a => rabs (a - x))).length = t.rows.length := by
    simp [agesList]
  have hvne : (agesList t).map (fun a => rabs (a - x)) ≠ [] := by
    intro e
    apply h
    have := congrArg List.length e
    rw [hvlen] at this
    exact List.length_eq_zero.mp (by simpa using this)
  obtain ⟨k, hhead, hk, hmin, hfirst⟩ :=
    argsort_head_spec ((agesList t).map (fun a => rabs (a - x))) hvne
  have hvget : ∀ j, j < t.rows.length →
      ((agesList t).map (fun a => rabs (a - x))).getD j 0 =
        rabs (rowAge t (t.rows.getD j []) - x) := by
    intro j hj
    rw [getD_map_of_lt (fun a => rabs (a - x)) (agesList t) 0 0 j (by simpa [agesList] using hj)]
    rw [agesList, getD_map_of_lt (rowAge t) t.rows [] 0 j hj]
  rw [hvlen] at hk
  refine ⟨k, hk, ?_, ?_, ?_⟩
  · unfold nearest_age
    rw [hhead]
    show Option.map (rowAge t) (t.rows.get? k) = some (rowAge t (t.rows.getD k []))
    rw [get?_eq_getD_of_lt t.rows [] k hk]
    rfl
  · intro j hj
    have := hmin j (by rwa [hvlen])
    rwa [hvget k hk, hvget j hj] at this
  · intro j hj heq
    refine hfirst j (by rwa [hvlen]) ?_
    rw [hvget k hk, hvget j hj]
    exact heq

/-- What lines 261–263 return: the first percentile label minimising the
absolute difference to the observed value. -/
theorem approx_percentile_spec (t : RefTable) (row : List ℚ) (v : ℚ)
    (h : percentile_cols t.headers ≠ []) :
    ∃ p i, approx_percentile t row v = some p ∧
      i < (percentile_cols t.headers).length ∧
      (percentile_cols t.headers).getD i "" = p ∧
      (∀ j, j < (percentile_cols t.headers).length →
        rabs (rowVal t row p - v) ≤
          rabs (rowVal t row ((percentile_cols t.headers).getD j "") - v)) ∧
      (∀ j, j < i →
        rabs (rowVal t row p - v) <
          rabs (rowVal t row ((percentile_cols t.headers).getD j "") - v)) := by
  obtain ⟨r, i, hsome, hi, hget, hmin, hstrict⟩ :=
    min_by_key_spec (fun p => rabs (rowVal t row p - v)) "" (percentile_cols t.headers) h
  refine ⟨r, i, hsome, hi, hget, ?_, ?_⟩
  · intro j hj
    simpa using hmin j hj
  · intro j hj
    simpa using hstrict j hj

/-- On a reference table with at least one row and at least one percentile
column, the whole estimate pipeline produces a result. -/
theorem estimate_isSome_of_nonempty (t : RefTable) (a v : ℚ) (h1 : t.rows ≠ [])
    (h2 : percentile_cols t.headers ≠ []) : (estimate t a v).isSome := by
  obtain ⟨i, hi, hna, _, _⟩ := nearest_age_spec t a h1
  have hfind : (t.rows.find?
      (fun r => decide (rowAge t r = rowAge t (t.rows.getD i [])))).isSome := by
    rw [List.find?_isSome]
    exact ⟨t.rows.getD i [], getD_mem_of_lt t.rows [] i hi, by simp⟩
  obtain ⟨row, hrow⟩ := Option.isSome_iff_exists.mp hfind
  obtain ⟨p, j, hp, _⟩ := approx_percentile_spec t row v h2
  simp only [estimate, hna, hrow, hp, Option.isSome_some]

/-- On a table with no rows the pipeline fails at line 259 (`.argsort()[0]`
raises `IndexError`). -/
theorem estimate_none_of_empty (hs : List String) (a v : ℚ) :
    estimate ⟨hs, []⟩ a v = none := by
  simp [estimate, nearest_age, argsort, agesList]

/-!
## The claims
-/

/-- C1: For every non-empty reference table and every finite `observedAge`,
the estimator's nearest-age lookup (line 259) returns the age of a row whose
absolute difference `|row.age − observedAge|` is minimal over all rows of the
table. -/
theorem C1_nearest_age_minimizes (t : RefTable) (x : ℚ) (h : t.rows ≠ []) :
    ∃ a, nearest_age t x = some a ∧
      (∃ r, r ∈ t.rows ∧ rowAge t r = a) ∧
      ∀ r, r ∈ t.rows → |a - x| ≤ |rowAge t r - x| := by
  obtain ⟨i, hi, hna, hmin, _⟩ := nearest_age_spec t x h
  refine ⟨rowAge t (t.rows.getD i []), hna,
    ⟨t.rows.getD i [], getD_mem_of_lt t.rows [] i hi, rfl⟩, ?_⟩
  intro r hr
  obtain ⟨j, hj, hgd⟩ := exists_getD_of_mem t.rows [] r hr
  have := hmin j hj
  rw [hgd] at this
  simpa [rabs_eq_abs] using this

theorem C1_witness :
    ((⟨["Age", "50"], [[6, 23], [8, 24]]⟩ : RefTable).rows ≠ []) ∧
    (∃ a, nearest_age ⟨["Age", "50"], [[6, 23], [8, 24]]⟩ 7 = some a ∧
      (∃ r, r ∈ (⟨["Age", "50"], [[6, 23], [8, 24]]⟩ : RefTable).rows ∧
        rowAge ⟨["Age", "50"], [[6, 23], [8, 24]]⟩ r = a) ∧
      ∀ r, r ∈ (⟨["Age", "50"], [[6, 23], [8, 24]]⟩ : RefTable).rows →
        |a - 7| ≤ |rowAge ⟨["Age", "50"], [[6, 23], [8, 24]]⟩ r - 7|) :=
  ⟨by simp, C1_nearest_age_minimizes ⟨["Age", "50"], [[6, 23], [8, 24]]⟩ 7 (by simp)⟩

/-- C2: For every reference row and every finite `observedValue`, the returned
percentile label (lines 261–263) minimises `|value − observedValue|` over the
row's percentile columns, and on exact ties the first label in the stored
column order is returned (the label at position `i` with all earlier
positions strictly farther away). -/
theorem C2_approx_percentile_minimizes (t : RefTable) (row : List ℚ) (v : ℚ)
    (h : percentile_cols t.headers ≠ []) :
    ∃ p, approx_percentile t row v = some p ∧
      (∀ q, q ∈ percentile_cols t.headers →
        |rowVal t row p - v| ≤ |rowVal t row q - v|) ∧
      (∃ i, i < (percentile_cols t.headers).length ∧
        (percentile_cols t.headers).getD i "" = p ∧
        ∀ j, j < i →
          |rowVal t row p - v| <
            |rowVal t row ((percentile_cols t.headers).getD j "") - v|) := by
  obtain ⟨p, i, hp, hi, hget, hmin, hstrict⟩ := approx_percentile_spec t row v h
  refine ⟨p, hp, ?_, i, hi, hget, ?_⟩
  · intro q hq
    obtain ⟨j, hj, hgd⟩ := exists_getD_of_mem (percentile_cols t.headers) "" q hq
    have := hmin j hj
    rw [hgd] at this
    simpa [rabs_eq_abs] using this
  · intro j hj
    have := hstrict j hj
    simpa [rabs_eq_abs] using this

theorem C2_witness :
    (percentile_cols ["Age", "50", "75"] ≠ []) ∧
    (∃ p, approx_percentile ⟨["Age", "50", "75"], [[6, 23, 24]]⟩ [6, 23, 24] 23 = some p ∧
      (∀ q, q ∈ percentile_cols ["Age", "50", "75"] →
        |rowVal ⟨["Age", "50", "75"], [[6, 23, 24]]⟩ [6, 23, 24] p - 23| ≤
          |rowVal ⟨["Age", "50", "75"], [[6, 23, 24]]⟩ [6, 23, 24] q - 23|) ∧
      (∃ i, i < (percentile_cols ["Age", "50", "75"]).length ∧
        (percentile_cols ["Age", "50", "75"]).getD i "" = p ∧
        ∀ j, j < i →
          |rowVal ⟨["Age", "50", "75"], [[6, 23, 24]]⟩ [6, 23, 24] p - 23| <
            |rowVal ⟨["Age", "50", "75"], [[6, 23, 24]]⟩ [6, 23, 24]
              ((percentile_cols ["Age", "50", "75"]).getD j "") - 23|)) :=
  ⟨by simp [percentile_cols],
    C2_approx_percentile_minimizes ⟨["Age", "50", "75"], [[6, 23, 24]]⟩ [6, 23, 24] 23
      (by simp [percentile_cols])⟩

/-- C3: Nearest-age tie-break: the selected position is minimal over the
whole table and not later than any position at the same distance (so ties go
to the first row in stored order); the lookup is a pure function, hence
deterministic across repeated calls; with table ages {6, 8} and observed age
7.0 the row with age 6 is selected. -/
theorem C3_tie_break_first_row (t : RefTable) (x : ℚ) (h : t.rows ≠ []) :
    (∃ i, i < t.rows.length ∧
      nearest_age t x = some (rowAge t (t.rows.getD i [])) ∧
      (∀ j, j < t.rows.length →
        |rowAge t (t.rows.getD i []) - x| ≤ |rowAge t (t.rows.getD j []) - x|) ∧
      (∀ j, j < t.rows.length →
        |rowAge t (t.rows.getD j []) - x| = |rowAge t (t.rows.getD i []) - x| → i ≤ j)) ∧
    nearest_age t x = nearest_age t x ∧
    nearest_age ⟨["Age", "50"], [[6, 23], [8, 24]]⟩ 7 = some 6 := by
  obtain ⟨i, hi, hna, hmin, hfirst⟩ := nearest_age_spec t x h
  refine ⟨⟨i, hi, hna, ?_, ?_⟩, rfl, by with_unfolding_all decide⟩
  · intro j hj
    have := hmin j hj
    simpa [rabs_eq_abs] using this
  · intro j hj heq
    refine hfirst j hj ?_
    simpa [rabs_eq_abs] using heq

theorem C3_witness :
    ((⟨["Age", "50"], [[6, 23], [8, 24]]⟩ : RefTable).rows ≠ []) ∧
    nearest_age ⟨["Age", "50"], [[6, 23], [8, 24]]⟩ 7 = some 6 :=
  ⟨by simp,
    (C3_tie_break_first_row ⟨["Age", "50"], [[6, 23], [8, 24]]⟩ 7 (by simp)).2.2⟩

/-- C6: On an empty reference table the estimator fails (line 259's
`.argsort()[0]` raises, modelled as `none`) rather than returning any default
result; on a table with rows and percentile columns (a non-empty table of
`ReferenceRow`s in the data model of the design) it does not fail. -/
theorem C6_empty_table_fails :
    (∀ hs a v, estimate ⟨hs, []⟩ a v = none) ∧
    (∀ t a v, t.rows ≠ [] → percentile_cols t.headers ≠ [] →
      (estimate t a v).isSome) :=
  ⟨estimate_none_of_empty,
   fun t a v h1 h2 => estimate_isSome_of_nonempty t a v h1 h2⟩

theorem C6_witness :
    (estimate ⟨["Age", "50"], []⟩ 7 23 = none) ∧
    ((⟨["Age", "50"], [[6, 23]]⟩ : RefTable).rows ≠ []) ∧
    (percentile_cols ["Age", "50"] ≠ []) ∧
    (estimate ⟨["Age", "50"], [[6, 23]]⟩ 7 23).isSome :=
  ⟨C6_empty_table_fails.1 ["Age", "50"] 7 23, by simp, by simp [percentile_cols],
    C6_empty_table_fails.2 ⟨["Age", "50"], [[6, 23]]⟩ 7 23 (by simp)
      (by simp [percentile_cols])⟩

/-- C7: Gender isolation of the visit log (lines 178–180): the displayed view
holds exactly the records whose `Gender` equals the selection; a form
submission under a different gender leaves the view unchanged; a fresh log
shows zero visits for every gender. -/
theorem C7_gender_isolation :
    (∀ visits g r, r ∈ visits_current_gender visits g ↔ r ∈ visits ∧ r.gender = g) ∧
    (∀ visits g g' dob label vdate axR axL, g' ≠ g →
      visits_current_gender (submitVisit visits g' dob label vdate axR axL) g =
        visits_current_gender visits g) ∧
    (∀ g, visits_current_gender [] g = []) := by
  refine ⟨?_, ?_, fun g => rfl⟩
  · intro visits g r
    simp [visits_current_gender, List.mem_filter]
  · intro visits g g' dob label vdate axR axL hne
    simp [visits_current_gender, submitVisit, List.filter_append,
      beq_eq_false_iff_ne.mpr hne]

theorem C7_witness :
    ("Male" : String) ≠ "Female" ∧
    visits_current_gender
      (submitVisit [] "Male" ⟨2015, 1, 1⟩ "baseline" ⟨2021, 1, 1⟩ 23 23) "Female" =
      visits_current_gender [] "Female" :=
  ⟨by decide,
    C7_gender_isolation.2.1 [] "Female" "Male" ⟨2015, 1, 1⟩ "baseline" ⟨2021, 1, 1⟩ 23 23
      (by decide)⟩

/-- C8: Per-eye estimate selection (lines 253–264): the reported estimate for
an eye is computed from the last-added matching record (`iloc[-1]` over
insertion order), not from the record with the most recent visit date; the
concrete log below has its last-added OD record dated strictly before an
earlier-added OD record, and it is the last-added one that is used. -/
theorem C8_last_added_record (t : RefTable) (visits : List VisitRecord)
    (g e : String) (r : VisitRecord) (hg : r.gender = g) (he : r.eye = e) :
    report_for_eye t (visits ++ [r]) g e = estimate t r.age r.axialLength ∧
    (last_added
      [⟨"Male", ⟨2015, 1, 1⟩, "v1", ⟨2021, 6, 1⟩, 6, "OD", 24⟩,
       ⟨"Male", ⟨2015, 1, 1⟩, "v2", ⟨2020, 6, 1⟩, 5, "OD", 22⟩] "Male" "OD" =
      some ⟨"Male", ⟨2015, 1, 1⟩, "v2", ⟨2020, 6, 1⟩, 5, "OD", 22⟩) ∧
    rataDie ⟨2020, 6, 1⟩ < rataDie ⟨2021, 6, 1⟩ := by
  refine ⟨?_, by with_unfolding_all decide, by with_unfolding_all decide⟩
  have hlast : last_added (visits ++ [r]) g e = some r := by
    simp [last_added, eye_data, visits_current_gender, List.filter_append, hg, he]
  simp only [report_for_eye, hlast]

theorem C8_witness :
    (⟨"Male", ⟨2015, 1, 1⟩, "v2", ⟨2020, 6, 1⟩, 5, "OD", 22⟩ : VisitRecord).gender =
      "Male" ∧
    (⟨"Male", ⟨2015, 1, 1⟩, "v2", ⟨2020, 6, 1⟩, 5, "OD", 22⟩ : VisitRecord).eye = "OD" ∧
    report_for_eye ⟨["Age", "50"], [[6, 23]]⟩
        ([⟨"Male", ⟨2015, 1, 1⟩, "v1", ⟨2021, 6, 1⟩, 6, "OD", 24⟩] ++
          [⟨"Male", ⟨2015, 1, 1⟩, "v2", ⟨2020, 6, 1⟩, 5, "OD", 22⟩]) "Male" "OD" =
      estimate ⟨["Age", "50"], [[6, 23]]⟩ 5 22 :=
  ⟨rfl, rfl,
    (C8_last_added_record ⟨["Age", "50"], [[6, 23]]⟩
      [⟨"Male", ⟨2015, 1, 1⟩, "v1", ⟨2021, 6, 1⟩, 6, "OD", 24⟩] "Male" "OD"
      ⟨"Male", ⟨2015, 1, 1⟩, "v2", ⟨2020, 6, 1⟩, 5, "OD", 22⟩ rfl rfl).1⟩

/-- C9: A form submission (lines 145–173) appends exactly two records — OD
with the right-eye length, OS with the left-eye length — sharing gender, dob,
label, visit date and the computed age, and leaves every previously stored
record unchanged. -/
theorem C9_submission_appends_two (visits : List VisitRecord) (g : String)
    (dob : CivilDate) (label : String) (vdate : CivilDate) (axR axL : ℚ) :
    submitVisit visits g dob label vdate axR axL =
      visits ++ [⟨g, dob, label, vdate, age_years dob vdate, "OD", axR⟩,
                 ⟨g, dob, label, vdate, age_years dob vdate, "OS", axL⟩] ∧
    (submitVisit visits g dob label vdate axR axL).length = visits.length + 2 ∧
    (submitVisit visits g dob label vdate axR axL).take visits.length = visits := by
  refine ⟨rfl, by simp [submitVisit], ?_⟩
  show (visits ++ _).take visits.length = visits
  exact List.take_left visits _

/-- C5 as stated is false at the input it names: for dob 2015-01-01 and visit
2021-01-01 the computed age is 6.00, not approximately 5.99 (the interval is
2192 days and 2192 / 365.25 ≈ 6.0014, which rounds to 6.00). -/
theorem C5_counterexample :
    age_years ⟨2015, 1, 1⟩ ⟨2021, 1, 1⟩ = 6 ∧ ((6 : ℚ) ≠ 599 / 100) := by
  constructor
  · with_unfolding_all decide
  · norm_num

/-- C5 amended: `ageYears = round((visitDate − dateOfBirth).days / 365.25, 2)`
for every pair of dates, and for dob 2015-01-01, visit 2021-01-01 the day
count is 2192 and the computed age is exactly 6.00. -/
theorem C5_age_formula :
    (∀ dob visit, age_years dob visit =
      pyRound2 ((diffDays dob visit : ℚ) * 4 / 1461)) ∧
    diffDays ⟨2015, 1, 1⟩ ⟨2021, 1, 1⟩ = 2192 ∧
    age_years ⟨2015, 1, 1⟩ ⟨2021, 1, 1⟩ = 6 := by
  refine ⟨?_, by with_unfolding_all decide, by with_unfolding_all decide⟩
  intro dob visit
  unfold age_years
  congr 1
  rw [show ((36525 : ℚ) / 100) = 1461 / 4 by norm_num, div_div_eq_mul_div]

theorem getD_set_self {α : Type} (l : List α) (c d : α) :
    ∀ i, (l.set i c).getD i d = if i < l.length then c else d := by
  induction l with
  | nil => intro i; simp
  | cons a l ih =>
    intro i
    cases i with
    | zero => simp
    | succ i =>
      simp only [List.set_cons_succ, List.getD_cons_succ, List.length_cons]
      rw [ih i]
      by_cases hi : i < l.length
      · rw [if_pos hi, if_pos (by omega)]
      · rw [if_neg hi, if_neg (by omega)]

theorem getD_of_length_le {α : Type} (l : List α) (d : α) :
    ∀ i, l.length ≤ i → l.getD i d = d := by
  induction l with
  | nil => intro i _; simp
  | cons a l ih =>
    intro i hi
    cases i with
    | zero => simp at hi
    | succ i =>
      simp only [List.getD_cons_succ]
      exact ih i (by simpa using Nat.le_of_succ_le_succ hi)

/-- C4 as stated is false: the "th" suffix is not stripped from the headers
of the table the estimator consults. Loading a table whose percentile header
is `"50th"` leaves the header — and hence the percentile column the
estimator searches — as `"50th"`, not the bare numeric label `"50"`. -/
theorem C4_counterexample :
    (load_growth_curve ⟨["Age", "50th"], [[Cell.num 6, Cell.num 23]]⟩).headers =
      ["Age", "50th"] ∧
    percentile_cols
      (load_growth_curve ⟨["Age", "50th"], [[Cell.num 6, Cell.num 23]]⟩).headers =
      ["50th"] ∧
    ("50th" : String) ≠ "50" := by
  refine ⟨by with_unfolding_all decide, by with_unfolding_all decide, by decide⟩

/-- C4 amended: loading strips surrounding whitespace and BOM artifacts from
each header but keeps any `"th"`; removal of `"th"` (every occurrence) plus
stripping happens only on the percentile labels of the long-format plotting
table `df_long`; the `Age` column is coerced to numeric and exactly the rows
that are entirely empty or whose age fails coercion are dropped, the
surviving rows keeping their cells except for the coerced age. -/
theorem C4_normalization (raw : RawTable) :
    (load_growth_curve raw).headers = raw.headers.map cleanHeader ∧
    (load_growth_curve raw).rows =
      ((raw.rows.filter (fun r => !r.all cellIsNA)).filter
          (fun r => (to_numeric
            (r.getD ((raw.headers.map cleanHeader).indexOf "Age") Cell.blank)).isSome)).map
        (fun r =>
          r.set ((raw.headers.map cleanHeader).indexOf "Age")
            (Cell.num ((to_numeric
              (r.getD ((raw.headers.map cleanHeader).indexOf "Age") Cell.blank)).getD 0))) ∧
    df_long_percentile_label "50th" = "50" ∧
    cleanHeader "50th" = "50th" := by
  refine ⟨rfl, ?_, by with_unfolding_all decide, by with_unfolding_all decide⟩
  show ((raw.rows.filter (fun r => !r.all cellIsNA)).map
      (fun r =>
        r.set ((raw.headers.map cleanHeader).indexOf "Age")
          (match to_numeric (r.getD ((raw.headers.map cleanHeader).indexOf "Age") Cell.blank) with
           | some q => Cell.num q
           | none => Cell.blank))).filter
      (fun r => !cellIsNA (r.getD ((raw.headers.map cleanHeader).indexOf "Age") Cell.blank)) = _
  rw [List.filter_map]
  have hpred : ∀ r ∈ raw.rows.filter (fun r => !r.all cellIsNA),
      ((fun r => !cellIsNA (r.getD ((raw.headers.map cleanHeader).indexOf "Age") Cell.blank)) ∘
        (fun r =>
          r.set ((raw.headers.map cleanHeader).indexOf "Age")
            (match to_numeric (r.getD ((raw.headers.map cleanHeader).indexOf "Age") Cell.blank) with
             | some q => Cell.num q
             | none => Cell.blank))) r =
      (to_numeric (r.getD ((raw.headers.map cleanHeader).indexOf "Age") Cell.blank)).isSome := by
    intro r _
    set i := (raw.headers.map cleanHeader).indexOf "Age" with hidef
    rw [Function.comp_apply, getD_set_self]
    by_cases hi : i < r.length
    · rw [if_pos hi]
      cases to_numeric (r.getD i Cell.blank) with
      | none => rfl
      | some q => rfl
    · rw [if_neg hi]
      have hblank : r.getD i Cell.blank = Cell.blank :=
        getD_of_length_le r Cell.blank i (le_of_not_lt hi)
      rw [hblank]
      rfl
  rw [List.filter_congr hpred]
  apply List.map_congr_left
  intro r hr
  have hsome := (List.mem_filter.mp hr).2
  cases hc : to_numeric (r.getD ((raw.headers.map cleanHeader).indexOf "Age") Cell.blank) with
  | none => rw [hc] at hsome; simp at hsome
  | some q => simp [hc]

/-- C10 (implicit): the nearest-percentile search ranges over every loaded
column except `"Age"`, i.e. over the raw headers after only whitespace and
BOM-artifact stripping; a column whose label is outside the fixed percentile
set (here `"Foo"`) still participates and can be returned as the
approximate percentile label. -/
theorem C10_percentile_cols_raw_headers :
    (∀ hs c, c ∈ percentile_cols hs ↔ c ∈ hs ∧ c ≠ "Age") ∧
    (∀ raw, percentile_cols (load_growth_curve raw).headers =
      (raw.headers.map cleanHeader).filter (fun c => c != "Age")) ∧
    approx_percentile ⟨["Age", "50", "Foo"], [[6, 23, 25]]⟩ [6, 23, 25] 25 = some "Foo" ∧
    ("Foo" : String) ∉ ["3", "5", "10", "25", "50", "75", "90", "95"] := by
  refine ⟨?_, fun raw => rfl, by with_unfolding_all decide, by decide⟩
  intro hs c
  simp [percentile_cols, List.mem_filter]

end AxialApp

/-- The end-to-end scenario of the design document: table ages {6, 7, 8} with
percentile-50 values {23.0, 23.3, 23.6}, observed age 7.4 and value 23.45
give nearest age 7, label "50", curve value 23.3. -/
theorem estimate_scenario :
    AxialApp.estimate
      ⟨["Age", "50", "75"], [[6, 23, 24], [7, 233/10, 243/10], [8, 236/10, 246/10]]⟩
      (37/5) (469/20) = some (7, "50", 233/10) := by
  with_unfolding_all decide
